import Mathlib

/- Verification development for perfhash.hpp, a header-only FKS (two-level)
perfect-hash map.  The repository ships two variants of the header:
one in namespace `hashing` (the variant main.cpp compiles against) and a
hardened one in namespace `perfhash` (bounds checks and asserts added).
Where the two variants differ observably, both behaviors are embedded and
the suffixes `…Chk` (checked, namespace perfhash) and the plain names
(namespace hashing) tell them apart.

Machine integers are modelled as `Nat` with explicit `% 2 ^ w`; keys are the
unsigned values of the C++ integral keys.  Exceptions and undefined behavior
are modelled with `Except Err`; the Las Vegas retry loop is modelled with an
explicit fuel parameter and a stream of random parameter draws. -/

namespace Perfhash

/-- Observable error outcomes of the C++ code: `notFound` is the
`std::out_of_range("No such key")` thrown by SubHash::at; `atThrow` is the
`std::out_of_range` thrown by a checked `vector::at` access during
construction; `ub` is an out-of-bounds unchecked `vector::operator[]`
access, i.e. undefined behavior. -/
inductive Err : Type
  | notFound
  | atThrow
  | ub
  deriving DecidableEq, Repr

/-- The loop body of the header's `log2`
(`for (log = 0; value != 0; log++) value >>= 1;`), with a structural fuel
argument so that the kernel can evaluate it; the wrapper `log2` passes the
value itself as fuel, which always suffices (the loop halves the value). -/
def log2Aux : Nat → Nat → Nat
  | 0, _ => 0
  | fuel + 1, v => if v = 0 then 0 else log2Aux fuel (v / 2) + 1

/-- The header's `log2`: the number of halvings needed to reach zero, i.e.
the bit length of `value` (`floor(log2 v) + 1` for `v ≥ 1`), not the
ceiling of `log2`. -/
def log2 (v : Nat) : Nat := log2Aux v v

theorem log2Aux_zero : ∀ fuel, log2Aux fuel 0 = 0 := by
  intro fuel
  cases fuel <;> rfl

theorem log2Aux_fuel :
    ∀ fuel fuel' v, v ≤ fuel → v ≤ fuel' →
      log2Aux fuel v = log2Aux fuel' v := by
  intro fuel
  induction fuel with
  | zero =>
    intro fuel' v hv _
    have : v = 0 := Nat.le_zero.mp hv
    subst this
    rw [log2Aux_zero, log2Aux_zero]
  | succ f ih =>
    intro fuel' v hv hv'
    cases v with
    | zero => rw [log2Aux_zero, log2Aux_zero]
    | succ w =>
      cases fuel' with
      | zero => exact absurd hv' (by omega)
      | succ f' =>
        show (if w + 1 = 0 then 0 else log2Aux f ((w + 1) / 2) + 1) =
          (if w + 1 = 0 then 0 else log2Aux f' ((w + 1) / 2) + 1)
        rw [if_neg (by omega), if_neg (by omega),
          ih f' ((w + 1) / 2) (by omega) (by omega)]

theorem log2_eq (v : Nat) :
    log2 v = if v = 0 then 0 else log2 (v / 2) + 1 := by
  cases v with
  | zero => rfl
  | succ w =>
    rw [if_neg (by omega)]
    show (if w + 1 = 0 then 0 else log2Aux w ((w + 1) / 2) + 1) = _
    rw [if_neg (by omega), log2Aux_fuel w ((w + 1) / 2) ((w + 1) / 2)
      (by omega) (by omega)]
    rfl

theorem log2_zero : log2 0 = 0 := rfl

theorem log2_succ (w : Nat) : log2 (w + 1) = log2 ((w + 1) / 2) + 1 := by
  rw [log2_eq]
  simp

/-- The spec's table-size exponent, modelled from the spec's words
("M = ceil(log2(n))"): the least exponent m with n ≤ 2 ^ m, computed as the
bit length of n - 1; `specCeilLog2_spec` below checks this reading. -/
def specCeilLog2 (n : Nat) : Nat := log2 (n - 1)

/-- ru_hash_function<Integer>::operator(): `unsigned(a * key + b) >> (w - M)`.
`a * key + b` is computed in the key's integer type, promoted to at least
32 bits, so it wraps modulo `2 ^ max w 32`; the cast `unsigned(...)`
truncates the result to 32 bits (`unsigned int`); the truncated value is
then shifted right by `w - M` bits.  `a`, `b`, `x` are the unsigned values
of the corresponding C++ integers. -/
def ruApplyW (w M a b x : Nat) : Nat :=
  (((a * x + b) % 2 ^ max w 32) % 2 ^ 32) >>> (w - M)

/-- The hash at the width the program instantiates it with (Key = int, w = 32). -/
def ruApply (M a b x : Nat) : Nat :=
  ruApplyW 32 M a b x

/-- The hash as the spec's words describe it, modelled for comparison:
"index = unsigned_overflow(a * key + b) >> (w - M)" with all arithmetic
modulo `2 ^ w` of the key's bit width `w`. -/
def specRuApply (w M a b x : Nat) : Nat :=
  ((a * x + b) % 2 ^ w) >>> (w - M)

theorem ruApply_eq (M a b x : Nat) :
    ruApply M a b x = ((a * x + b) % 2 ^ 32) >>> (32 - M) := by
  simp [ruApply, ruApplyW, Nat.mod_mod_of_dvd _ dvd_rfl]

theorem ruApply_lt (M a b x : Nat) : ruApply M a b x < 2 ^ M := by
  rw [ruApply_eq, Nat.shiftRight_eq_div_pow]
  rcases le_or_lt M 32 with hM | hM
  · rw [Nat.div_lt_iff_lt_mul (Nat.pos_pow_of_pos _ (by norm_num))]
    calc (a * x + b) % 2 ^ 32 < 2 ^ 32 := Nat.mod_lt _ (by norm_num)
      _ = 2 ^ M * 2 ^ (32 - M) := by rw [← pow_add]; congr 1; omega
  · calc (a * x + b) % 2 ^ 32 / 2 ^ (32 - M) ≤ (a * x + b) % 2 ^ 32 :=
        Nat.div_le_self _ _
      _ < 2 ^ 32 := Nat.mod_lt _ (by norm_num)
      _ ≤ 2 ^ M := Nat.pow_le_pow_right (by norm_num) (le_of_lt hM)

theorem lt_two_pow_log2 (n : Nat) : n < 2 ^ log2 n := by
  induction n using Nat.strong_induction_on with
  | _ n ih =>
    match n with
    | 0 => simp [log2_zero]
    | v + 1 =>
      have h2 : (v + 1) / 2 < v + 1 := by omega
      have := ih _ h2
      rw [log2_succ, pow_succ]
      omega

theorem log2_le_of_lt_two_pow (n m : Nat) (h : n < 2 ^ m) : log2 n ≤ m := by
  induction n using Nat.strong_induction_on generalizing m with
  | _ n ih =>
    match n with
    | 0 => simp [log2_zero]
    | v + 1 =>
      have hm : 0 < m := by
        by_contra hc
        simp only [Nat.not_lt, Nat.le_zero] at hc
        subst hc; simp at h
      have hdiv : (v + 1) / 2 < 2 ^ (m - 1) := by
        have : 2 ^ m = 2 ^ (m - 1) * 2 := by
          rw [← pow_succ]; congr 1; omega
        rw [Nat.div_lt_iff_lt_mul (by norm_num)]
        omega
      have := ih _ (by omega) (m - 1) hdiv
      rw [log2_succ]
      omega

theorem specCeilLog2_spec (n : Nat) (hn : 1 ≤ n) :
    n ≤ 2 ^ specCeilLog2 n ∧ ∀ j, n ≤ 2 ^ j → specCeilLog2 n ≤ j := by
  constructor
  · have := lt_two_pow_log2 (n - 1)
    unfold specCeilLog2
    omega
  · intro j hj
    exact log2_le_of_lt_two_pow (n - 1) j (by omega)

variable {V : Type}

/-- perfect_hash_map::SubHash: a second-level hash instance (exponent `M`,
parameters `a`, `b`) plus its slot vector `buckets` (here `slots`).  Each
slot holds a key/value pair; a fresh SubHash has an empty slot vector. -/
structure SubHash (V : Type) where
  M : Nat
  a : Nat
  b : Nat
  slots : List (Nat × V)
  deriving DecidableEq, Repr

/-- The bucket's hash applied to a key (`bucket.hash(key)`), at w = 32. -/
def SubHash.apply (bk : SubHash V) (x : Nat) : Nat := ruApply bk.M bk.a bk.b x

/-- SubHash::capacity: buckets.size(). -/
def SubHash.capacity (bk : SubHash V) : Nat := bk.slots.length

/-- SubHash::resize(size): M = log2(size); buckets.resize(1 << M).
`vector::resize` keeps the existing prefix and fills new slots with
value-initialized pairs, i.e. `(Key(), Value())` = `(0, default)`. -/
def SubHash.resize [Inhabited V] (bk : SubHash V) (size : Nat) : SubHash V :=
  let M := log2 size
  ⟨M, bk.a, bk.b,
    (bk.slots ++ List.replicate (2 ^ M - bk.slots.length) (0, default)).take (2 ^ M)⟩

/-- SubHash::rehash / ru_hash_function::rehash: `a = rdist(rng);
b = rdist(rng) >> M`, where `d` is the pair of fresh 32-bit draws. -/
def SubHash.rehash (bk : SubHash V) (d : Nat × Nat) : SubHash V :=
  ⟨bk.M, d.1 % 2 ^ 32, (d.2 % 2 ^ 32) >>> bk.M, bk.slots⟩

/-- SubHash::add: `buckets[hash(pair.first)] = pair`.  The unchecked write
would be undefined behavior out of bounds; `List.set` is a no-op there, and
every use below is proved in bounds. -/
def SubHash.add (bk : SubHash V) (e : Nat × V) : SubHash V :=
  ⟨bk.M, bk.a, bk.b, bk.slots.set (bk.apply e.1) e⟩

/-- SubHash::at of the hashing:: variant: reads `buckets[hash(key)]`
unchecked (out of bounds: undefined behavior, `.error .ub`), then throws
"No such key" when the stored key differs from the query key. -/
def subAt (bk : SubHash V) (k : Nat) : Except Err V :=
  match bk.slots[bk.apply k]? with
  | none => .error .ub
  | some p => if p.1 = k then .ok p.2 else .error .notFound

/-- SubHash::at of the perfhash:: variant: `if (h >= buckets.size()) throw
std::out_of_range("No such key");` first, then the key comparison. -/
def subAtChk (bk : SubHash V) (k : Nat) : Except Err V :=
  match bk.slots[bk.apply k]? with
  | none => .error .notFound
  | some p => if p.1 = k then .ok p.2 else .error .notFound

/-- perfect_hash_map: top-level hash instance (`m_hash`: exponent `M`,
parameters `a`, `b`), the bucket vector `m_buckets` and the key list
`m_keys`. -/
structure perfect_hash_map (V : Type) where
  M : Nat
  a : Nat
  b : Nat
  buckets : List (SubHash V)
  keys : List Nat
  deriving DecidableEq, Repr

/-- The top-level bucket index `m_hash(key)` of a key. -/
def topIdx (m : perfect_hash_map V) (k : Nat) : Nat := ruApply m.M m.a m.b k

/-- perfect_hash_map::at, hashing:: variant:
`m_buckets[m_hash(key)].at(key)` with an unchecked bucket access. -/
def mapAt (m : perfect_hash_map V) (k : Nat) : Except Err V :=
  match m.buckets[topIdx m k]? with
  | none => .error .ub
  | some bk => subAt bk k

/-- perfect_hash_map::at, perfhash:: variant: `assert(h < m_buckets.size())`
(failure aborts, modelled `.error .ub`), then the bucket's checked at. -/
def mapAtChk (m : perfect_hash_map V) (k : Nat) : Except Err V :=
  match m.buckets[topIdx m k]? with
  | none => .error .ub
  | some bk => subAtChk bk k

/-- Assignment through the unchecked accessors:
`map[key] = v` is `m_buckets[m_hash(key)][key] = v`, i.e.
`buckets[hash(key)].second = v` in the selected bucket.  Out-of-bounds
positions would be undefined behavior in C++; the model leaves the map
unchanged there, and every use in the theorems is proved in bounds. -/
def updateVal (m : perfect_hash_map V) (k : Nat) (v : V) : perfect_hash_map V :=
  match m.buckets[topIdx m k]? with
  | none => m
  | some bk =>
    match bk.slots[bk.apply k]? with
    | none => m
    | some p =>
      ⟨m.M, m.a, m.b,
        m.buckets.set (topIdx m k)
          ⟨bk.M, bk.a, bk.b, bk.slots.set (bk.apply k) (p.1, v)⟩,
        m.keys⟩

/-- Outcome of one full pass of do_perfect's probe loop over the pending
pairs: `thrown` = a checked `dummy.at(h)` raised `std::out_of_range`;
`oob` = an unchecked scratch access was out of bounds (undefined behavior);
`collision` = two keys mapped to the same marked slot; `ok` = clean pass. -/
inductive PassOut : Type
  | thrown
  | oob
  | collision
  | ok
  deriving DecidableEq, Repr

/-- One pass of do_perfect, hashing:: variant: the scratch vector is read
and written through checked `dummy.at(h)`, which throws when `h` is out of
range. -/
def passProbe (M a b : Nat) : List (Nat × V) → List Bool → PassOut
  | [], _ => .ok
  | e :: rest, dummy =>
    let h := ruApply M a b e.1
    match dummy[h]? with
    | none => .thrown
    | some true => .collision
    | some false => passProbe M a b rest (dummy.set h true)

/-- One pass of do_perfect, perfhash:: variant: `assert(h < dummy.size())`
then unchecked `dummy[h]`; an out-of-range access would abort/UB (`oob`). -/
def passProbeChk (M a b : Nat) : List (Nat × V) → List Bool → PassOut
  | [], _ => .ok
  | e :: rest, dummy =>
    let h := ruApply M a b e.1
    match dummy[h]? with
    | none => .oob
    | some true => .collision
    | some false => passProbeChk M a b rest (dummy.set h true)

/-- The placement pass after the probe loop:
`for (auto& e : elements) bucket.add(e);`. -/
def placeAll (bk : SubHash V) (elems : List (Nat × V)) : SubHash V :=
  elems.foldl SubHash.add bk

/-- do_perfect, hashing:: variant.  On a collision the scratch vector is
emptied (`dummy.clear()`, leaving a zero-length vector), the bucket is
rehashed with the next draw `ps t`, and the pass restarts.  `fuel` bounds
the number of passes; `none` means the fuel ran out. -/
def do_perfect (elems : List (Nat × V)) (ps : Nat → Nat × Nat) :
    Nat → SubHash V → Nat → List Bool → Option (Except Err (SubHash V))
  | 0, _, _, _ => none
  | fuel + 1, bk, t, dummy =>
    match passProbe bk.M bk.a bk.b elems dummy with
    | .thrown => some (.error .atThrow)
    | .oob => some (.error .ub)
    | .collision => do_perfect elems ps fuel (bk.rehash (ps t)) (t + 1) []
    | .ok => some (.ok (placeAll bk elems))

/-- do_perfect, perfhash:: variant.  On a collision every entry of the
scratch vector is reset to false
(`std::fill(dummy.begin(), dummy.end(), false)`), keeping its length. -/
def do_perfectChk (elems : List (Nat × V)) (ps : Nat → Nat × Nat) :
    Nat → SubHash V → Nat → List Bool → Option (Except Err (SubHash V))
  | 0, _, _, _ => none
  | fuel + 1, bk, t, dummy =>
    match passProbeChk bk.M bk.a bk.b elems dummy with
    | .thrown => some (.error .atThrow)
    | .oob => some (.error .ub)
    | .collision =>
      do_perfectChk elems ps fuel (bk.rehash (ps t)) (t + 1)
        (List.replicate dummy.length false)
    | .ok => some (.ok (placeAll bk elems))

/-- One step of populate's partition loop:
`hashed.at(m_hash(it->first)).push_back(*it)`.  The checked access would
throw out of range, but the index is proved in range at every use; the
model leaves the state unchanged there. -/
def partitionStep (hashed : List (List (Nat × V))) (h : Nat) (e : Nat × V) :
    List (List (Nat × V)) :=
  match hashed[h]? with
  | none => hashed
  | some l => hashed.set h (l ++ [e])

/-- populate's partition phase: `nb` empty pending lists, then every input
pair is appended to the pending list of its top-level bucket index. -/
def partitionInput (M a b : Nat) (inp : List (Nat × V)) (nb : Nat) :
    List (List (Nat × V)) :=
  inp.foldl (fun hs e => partitionStep hs (ruApply M a b e.1) e)
    (List.replicate nb [])

/-- populate's second phase over `hashed`, bucket index `i` onward: an empty
pending list leaves the bucket as the prototype copy (`continue`); otherwise
the bucket is resized to `l * l` and run through do_perfect (hashing::
variant).  A thrown construction error aborts the whole construction. -/
def buildBuckets [Inhabited V] (proto : SubHash V) (ps : Nat → Nat → Nat × Nat)
    (fuel : Nat) :
    List (List (Nat × V)) → Nat → Option (Except Err (List (SubHash V)))
  | [], _ => some (.ok [])
  | elems :: rest, i =>
    if elems.isEmpty then
      match buildBuckets proto ps fuel rest (i + 1) with
      | none => none
      | some (.error err) => some (.error err)
      | some (.ok l) => some (.ok (proto :: l))
    else
      let bk := proto.resize (elems.length * elems.length)
      match do_perfect elems (ps i) fuel bk 0 (List.replicate bk.capacity false) with
      | none => none
      | some (.error err) => some (.error err)
      | some (.ok bk2) =>
        match buildBuckets proto ps fuel rest (i + 1) with
        | none => none
        | some (.error err) => some (.error err)
        | some (.ok l) => some (.ok (bk2 :: l))

/-- The range constructor of perfect_hash_map (hashing:: variant):
`m_hash.M = log2(n)`; seeding draws `a` and `b = draw >> M`; `2^M` buckets
all copied from one prototype SubHash (the prototype's hash was seeded once
while its exponent field was still uninitialized, so its parameters
`M0, a0, b0` are arbitrary model parameters and its slot vector is empty);
then populate.  `dTop` are the top-level draws, `ps i t` is the t-th rehash
draw of bucket `i`, `fuel` bounds each bucket's Las Vegas retry loop. -/
def constructMap [Inhabited V] (inp : List (Nat × V)) (dTop : Nat × Nat)
    (M0 a0 b0 : Nat) (ps : Nat → Nat → Nat × Nat) (fuel : Nat) :
    Option (Except Err (perfect_hash_map V)) :=
  let Mt := log2 inp.length
  let a := dTop.1 % 2 ^ 32
  let b := (dTop.2 % 2 ^ 32) >>> Mt
  let hashed := partitionInput Mt a b inp (2 ^ Mt)
  match buildBuckets ⟨M0, a0, b0, []⟩ ps fuel hashed 0 with
  | none => none
  | some (.error err) => some (.error err)
  | some (.ok bks) => some (.ok ⟨Mt, a, b, bks, inp.map Prod.fst⟩)

theorem passProbe_ok_not_marked {M a b : Nat} :
    ∀ (elems : List (Nat × V)) (dummy : List Bool),
    passProbe M a b elems dummy = .ok →
    ∀ e ∈ elems, dummy[ruApply M a b e.1]? ≠ some true := by
  intro elems
  induction elems with
  | nil => intro dummy _ e he; cases he
  | cons e rest ih =>
    intro dummy h e' he'
    simp only [passProbe] at h
    cases hd : dummy[ruApply M a b e.1]? with
    | none => rw [hd] at h; cases h
    | some bv =>
      cases bv with
      | true => rw [hd] at h; cases h
      | false =>
        rw [hd] at h
        have hlt : ruApply M a b e.1 < dummy.length := by
          rcases List.getElem?_eq_some.mp hd with ⟨hl, _⟩
          exact hl
        rcases List.mem_cons.mp he' with he' | he'
        · rw [he', hd]; simp
        · have hset := ih _ h e' he'
          by_cases hidx : ruApply M a b e'.1 = ruApply M a b e.1
          · rw [hidx] at hset ⊢
            exact absurd (List.getElem?_set_self hlt) hset
          · rw [List.getElem?_set_ne (fun hc => hidx hc.symm)] at hset
            exact hset

theorem passProbe_ok_pairwise {M a b : Nat} :
    ∀ (elems : List (Nat × V)) (dummy : List Bool),
    passProbe M a b elems dummy = .ok →
    (elems.map (fun e => ruApply M a b e.1)).Pairwise (· ≠ ·) := by
  intro elems
  induction elems with
  | nil => intro dummy _; simp
  | cons e rest ih =>
    intro dummy h
    simp only [passProbe] at h
    cases hd : dummy[ruApply M a b e.1]? with
    | none => rw [hd] at h; cases h
    | some bv =>
      cases bv with
      | true => rw [hd] at h; cases h
      | false =>
        rw [hd] at h
        have hlt : ruApply M a b e.1 < dummy.length := by
          rcases List.getElem?_eq_some.mp hd with ⟨hl, _⟩
          exact hl
        simp only [List.map_cons, List.pairwise_cons]
        constructor
        · intro h' hmem heq
          rcases List.mem_map.mp hmem with ⟨e', he', rfl⟩
          have hset := passProbe_ok_not_marked _ _ h e' he'
          rw [← heq, List.getElem?_set_self hlt] at hset
          exact hset rfl
        · exact ih _ h

theorem placeAll_M (bk : SubHash V) (elems : List (Nat × V)) :
    (placeAll bk elems).M = bk.M ∧ (placeAll bk elems).a = bk.a ∧
      (placeAll bk elems).b = bk.b := by
  induction elems generalizing bk with
  | nil => exact ⟨rfl, rfl, rfl⟩
  | cons e rest ih => exact ih (bk.add e)

theorem placeAll_length (bk : SubHash V) (elems : List (Nat × V)) :
    (placeAll bk elems).slots.length = bk.slots.length := by
  induction elems generalizing bk with
  | nil => rfl
  | cons e rest ih =>
    simpa [SubHash.add, placeAll] using ih (bk.add e)

theorem placeAll_apply (bk : SubHash V) (elems : List (Nat × V)) (x : Nat) :
    (placeAll bk elems).apply x = bk.apply x := by
  rcases placeAll_M bk elems with ⟨h1, h2, h3⟩
  simp [SubHash.apply, h1, h2, h3]

theorem placeAll_getElem?_of_ne (bk : SubHash V) (elems : List (Nat × V))
    (i : Nat) (hne : ∀ e ∈ elems, ruApply bk.M bk.a bk.b e.1 ≠ i) :
    (placeAll bk elems).slots[i]? = bk.slots[i]? := by
  induction elems generalizing bk with
  | nil => rfl
  | cons e rest ih =>
    have step := ih (bk.add e) (fun e' he' => hne e' (List.mem_cons_of_mem _ he'))
    rw [placeAll] at *
    simp only [List.foldl_cons] at *
    rw [step]
    exact List.getElem?_set_ne (hne e (List.mem_cons_self _ _))

theorem placeAll_getElem?_mem (bk : SubHash V) (elems : List (Nat × V))
    (e : Nat × V) (he : e ∈ elems)
    (hpw : (elems.map (fun e => ruApply bk.M bk.a bk.b e.1)).Pairwise (· ≠ ·))
    (hlt : ∀ e' ∈ elems, ruApply bk.M bk.a bk.b e'.1 < bk.slots.length) :
    (placeAll bk elems).slots[ruApply bk.M bk.a bk.b e.1]? = some e := by
  induction elems generalizing bk with
  | nil => cases he
  | cons e0 rest ih =>
    simp only [List.map_cons, List.pairwise_cons] at hpw
    rcases List.mem_cons.mp he with rfl | he'
    · rw [placeAll]
      simp only [List.foldl_cons]
      have hne : ∀ e' ∈ rest,
          ruApply (bk.add e).M (bk.add e).a (bk.add e).b e'.1 ≠
            ruApply bk.M bk.a bk.b e.1 := by
        intro e' he'
        simp only [SubHash.add]
        exact fun hc =>
          hpw.1 _ (List.mem_map.mpr ⟨e', he', rfl⟩) hc.symm
      have := placeAll_getElem?_of_ne (bk.add e) rest
        (ruApply bk.M bk.a bk.b e.1) (by simpa [SubHash.add] using hne)
      rw [placeAll] at this
      rw [this]
      simp only [SubHash.add, SubHash.apply]
      exact List.getElem?_set_self (hlt e (List.mem_cons_self _ _))
    · rw [placeAll]
      simp only [List.foldl_cons]
      have hres := ih (bk.add e0) he' (by simpa [SubHash.add] using hpw.2)
        (by
          intro e' he'2
          simpa [SubHash.add, SubHash.apply] using
            hlt e' (List.mem_cons_of_mem _ he'2))
      simpa [SubHash.add, placeAll] using hres

theorem placeAll_mem_slots (bk : SubHash V) (elems : List (Nat × V))
    (p : Nat × V) (hp : p ∈ (placeAll bk elems).slots) :
    p ∈ bk.slots ∨ p ∈ elems := by
  induction elems generalizing bk with
  | nil => exact Or.inl hp
  | cons e rest ih =>
    rcases ih (bk.add e) hp with h | h
    · rcases List.mem_or_eq_of_mem_set h with h' | h'
      · exact Or.inl h'
      · exact Or.inr (h' ▸ List.mem_cons_self _ _)
    · exact Or.inr (List.mem_cons_of_mem _ h)

theorem do_perfect_ok {elems : List (Nat × V)} {ps : Nat → Nat × Nat} :
    ∀ {fuel : Nat} {bk : SubHash V} {t : Nat} {dummy : List Bool}
      {r : SubHash V},
    do_perfect elems ps fuel bk t dummy = some (.ok r) →
    ∃ bk2 d2, passProbe bk2.M bk2.a bk2.b elems d2 = .ok ∧
      r = placeAll bk2 elems ∧ bk2.M = bk.M ∧ bk2.slots = bk.slots := by
  intro fuel
  induction fuel with
  | zero => intro bk t dummy r h; cases h
  | succ n ih =>
    intro bk t dummy r h
    simp only [do_perfect] at h
    cases hp : passProbe bk.M bk.a bk.b elems dummy with
    | thrown => rw [hp] at h; cases h
    | oob => rw [hp] at h; cases h
    | collision =>
      rw [hp] at h
      rcases ih h with ⟨bk2, d2, h1, h2, h3, h4⟩
      exact ⟨bk2, d2, h1, h2, h3, h4⟩
    | ok =>
      rw [hp] at h
      injection h with h
      injection h with h
      exact ⟨bk, dummy, hp, h.symm, rfl, rfl⟩

theorem partitionStep_length (hashed : List (List (Nat × V))) (h : Nat)
    (e : Nat × V) : (partitionStep hashed h e).length = hashed.length := by
  cases hx : hashed[h]? <;> simp [partitionStep, hx]

theorem partition_foldl_length {M a b : Nat} :
    ∀ (inp : List (Nat × V)) (hs : List (List (Nat × V))),
    (inp.foldl (fun hs e => partitionStep hs (ruApply M a b e.1) e) hs).length
      = hs.length := by
  intro inp
  induction inp with
  | nil => intro hs; rfl
  | cons e rest ih =>
    intro hs
    simp only [List.foldl_cons]
    rw [ih]
    exact partitionStep_length _ _ _

theorem partition_foldl_getElem? {M a b : Nat} :
    ∀ (inp : List (Nat × V)) (hs : List (List (Nat × V))) (i : Nat),
    i < hs.length →
    (∀ e ∈ inp, ruApply M a b e.1 < hs.length) →
    (inp.foldl (fun hs e => partitionStep hs (ruApply M a b e.1) e) hs)[i]? =
      (hs[i]?).map
        (fun l => l ++ inp.filter (fun e => ruApply M a b e.1 == i)) := by
  intro inp
  induction inp with
  | nil =>
    intro hs i hi _
    simp
  | cons e rest ih =>
    intro hs i hi hb
    simp only [List.foldl_cons]
    have he : ruApply M a b e.1 < hs.length := hb e (List.mem_cons_self _ _)
    obtain ⟨l, hl⟩ : ∃ l, hs[ruApply M a b e.1]? = some l :=
      ⟨_, List.getElem?_eq_getElem he⟩
    have hstep : partitionStep hs (ruApply M a b e.1) e =
        hs.set (ruApply M a b e.1) (l ++ [e]) := by
      simp [partitionStep, hl]
    rw [hstep]
    have hres := ih (hs.set (ruApply M a b e.1) (l ++ [e])) i
      (by simpa using hi)
      (fun e' he' => by simpa using hb e' (List.mem_cons_of_mem _ he'))
    rw [hres]
    by_cases hcase : ruApply M a b e.1 = i
    · subst hcase
      rw [List.getElem?_set_self he, hl]
      simp [List.filter_cons]
    · rw [List.getElem?_set_ne hcase]
      cases hx : hs[i]? with
      | none => simp
      | some l' => simp [List.filter_cons, hcase]

theorem partitionInput_length (M a b : Nat) (inp : List (Nat × V)) (nb : Nat) :
    (partitionInput M a b inp nb).length = nb := by
  rw [partitionInput, partition_foldl_length]
  simp

theorem partitionInput_getElem? (M a b : Nat) (inp : List (Nat × V))
    (nb i : Nat) (hi : i < nb) (hb : ∀ e ∈ inp, ruApply M a b e.1 < nb) :
    (partitionInput M a b inp nb)[i]? =
      some (inp.filter (fun e => ruApply M a b e.1 == i)) := by
  rw [partitionInput,
    partition_foldl_getElem? inp _ i (by simpa using hi) (by simpa using hb)]
  rw [List.getElem?_replicate]
  simp [hi]

theorem buildBuckets_ok [Inhabited V] {proto : SubHash V}
    {ps : Nat → Nat → Nat × Nat} {fuel : Nat} :
    ∀ {hashed : List (List (Nat × V))} {i : Nat} {bks : List (SubHash V)},
    buildBuckets proto ps fuel hashed i = some (.ok bks) →
    bks.length = hashed.length ∧
      ∀ j elems, hashed[j]? = some elems →
        (elems = [] ∧ bks[j]? = some proto) ∨
        (elems ≠ [] ∧ ∃ r,
          do_perfect elems (ps (i + j)) fuel
              (proto.resize (elems.length * elems.length)) 0
              (List.replicate
                (proto.resize (elems.length * elems.length)).capacity false)
            = some (.ok r) ∧ bks[j]? = some r) := by
  intro hashed
  induction hashed with
  | nil =>
    intro i bks h
    simp only [buildBuckets] at h
    injection h with h
    injection h with h
    subst h
    refine ⟨rfl, ?_⟩
    intro j elems hj
    simp at hj
  | cons elems0 rest ih =>
    intro i bks h
    simp only [buildBuckets] at h
    by_cases hemp : elems0.isEmpty
    · rw [if_pos hemp] at h
      cases hrec : buildBuckets proto ps fuel rest (i + 1) with
      | none => rw [hrec] at h; cases h
      | some res =>
        rw [hrec] at h
        cases res with
        | error err => simp at h
        | ok l =>
          simp only [Option.some.injEq, Except.ok.injEq] at h
          subst h
          rcases ih hrec with ⟨hlen, hpt⟩
          refine ⟨by simp [hlen], ?_⟩
          intro j elems hj
          cases j with
          | zero =>
            left
            simp only [List.getElem?_cons_zero, Option.some.injEq] at hj
            subst hj
            exact ⟨List.isEmpty_iff.mp hemp, by simp⟩
          | succ j' =>
            simp only [List.getElem?_cons_succ] at hj
            rcases hpt j' elems hj with ⟨h1, h2⟩ | ⟨h1, r, h2, h3⟩
            · exact Or.inl ⟨h1, by simpa using h2⟩
            · refine Or.inr ⟨h1, r, ?_, by simpa using h3⟩
              have harith : i + (j' + 1) = i + 1 + j' := by omega
              rw [harith]
              exact h2
    · rw [if_neg hemp] at h
      cases hdp : do_perfect elems0 (ps i) fuel
          (proto.resize (elems0.length * elems0.length)) 0
          (List.replicate
            (proto.resize (elems0.length * elems0.length)).capacity false) with
      | none => rw [hdp] at h; cases h
      | some res =>
        rw [hdp] at h
        cases res with
        | error err => simp at h
        | ok bk2 =>
          cases hrec : buildBuckets proto ps fuel rest (i + 1) with
          | none => rw [hrec] at h; cases h
          | some res2 =>
            rw [hrec] at h
            cases res2 with
            | error err => simp at h
            | ok l =>
              simp only [Option.some.injEq, Except.ok.injEq] at h
              subst h
              rcases ih hrec with ⟨hlen, hpt⟩
              refine ⟨by simp [hlen], ?_⟩
              intro j elems hj
              cases j with
              | zero =>
                right
                simp only [List.getElem?_cons_zero, Option.some.injEq] at hj
                subst hj
                refine ⟨by simpa using hemp, bk2, ?_, by simp⟩
                simpa using hdp
              | succ j' =>
                simp only [List.getElem?_cons_succ] at hj
                rcases hpt j' elems hj with ⟨h1, h2⟩ | ⟨h1, r, h2, h3⟩
                · exact Or.inl ⟨h1, by simpa using h2⟩
                · refine Or.inr ⟨h1, r, ?_, by simpa using h3⟩
                  have harith : i + (j' + 1) = i + 1 + j' := by omega
                  rw [harith]
                  exact h2

theorem resize_empty [Inhabited V] (M0 a0 b0 sz : Nat) :
    (SubHash.resize (⟨M0, a0, b0, []⟩ : SubHash V) sz).slots =
        List.replicate (2 ^ log2 sz) ((0 : Nat), (default : V)) ∧
      (SubHash.resize (⟨M0, a0, b0, []⟩ : SubHash V) sz).M = log2 sz ∧
      (SubHash.resize (⟨M0, a0, b0, []⟩ : SubHash V) sz).a = a0 ∧
      (SubHash.resize (⟨M0, a0, b0, []⟩ : SubHash V) sz).b = b0 := by
  refine ⟨?_, rfl, rfl, rfl⟩
  simp [SubHash.resize]

theorem constructMap_ok [Inhabited V] {inp : List (Nat × V)} {dTop : Nat × Nat}
    {M0 a0 b0 : Nat} {ps : Nat → Nat → Nat × Nat} {fuel : Nat}
    {m : perfect_hash_map V}
    (hc : constructMap inp dTop M0 a0 b0 ps fuel = some (.ok m)) :
    ∃ bks,
      buildBuckets (⟨M0, a0, b0, []⟩ : SubHash V) ps fuel
          (partitionInput (log2 inp.length) (dTop.1 % 2 ^ 32)
            ((dTop.2 % 2 ^ 32) >>> log2 inp.length) inp
            (2 ^ log2 inp.length)) 0
        = some (.ok bks) ∧
      m = ⟨log2 inp.length, dTop.1 % 2 ^ 32,
            (dTop.2 % 2 ^ 32) >>> log2 inp.length, bks,
            inp.map Prod.fst⟩ := by
  simp only [constructMap] at hc
  cases hbb : buildBuckets (⟨M0, a0, b0, []⟩ : SubHash V) ps fuel
      (partitionInput (log2 inp.length) (dTop.1 % 2 ^ 32)
        ((dTop.2 % 2 ^ 32) >>> log2 inp.length) inp (2 ^ log2 inp.length)) 0 with
  | none => rw [hbb] at hc; cases hc
  | some res =>
    rw [hbb] at hc
    cases res with
    | error err => simp at hc
    | ok bks =>
      simp only [Option.some.injEq, Except.ok.injEq] at hc
      exact ⟨bks, rfl, hc.symm⟩

theorem construct_shape [Inhabited V] {inp : List (Nat × V)} {dTop : Nat × Nat}
    {M0 a0 b0 : Nat} {ps : Nat → Nat → Nat × Nat} {fuel : Nat}
    {m : perfect_hash_map V}
    (hc : constructMap inp dTop M0 a0 b0 ps fuel = some (.ok m)) :
    m.M = log2 inp.length ∧ m.a = dTop.1 % 2 ^ 32 ∧
      m.b = (dTop.2 % 2 ^ 32) >>> log2 inp.length ∧
      m.buckets.length = 2 ^ log2 inp.length ∧
      m.keys = inp.map Prod.fst := by
  rcases constructMap_ok hc with ⟨bks, hbb, rfl⟩
  rcases buildBuckets_ok hbb with ⟨hlen, _⟩
  refine ⟨rfl, rfl, rfl, ?_, rfl⟩
  simpa [partitionInput_length] using hlen

theorem construct_slot [Inhabited V] {inp : List (Nat × V)} {dTop : Nat × Nat}
    {M0 a0 b0 : Nat} {ps : Nat → Nat → Nat × Nat} {fuel : Nat}
    {m : perfect_hash_map V}
    (hc : constructMap inp dTop M0 a0 b0 ps fuel = some (.ok m))
    {k : Nat} {v : V} (hm : (k, v) ∈ inp) :
    topIdx m k < m.buckets.length ∧
      ∃ bk, m.buckets[topIdx m k]? = some bk ∧
        bk.slots[bk.apply k]? = some (k, v) := by
  rcases constructMap_ok hc with ⟨bks, hbb, rfl⟩
  rcases buildBuckets_ok hbb with ⟨hlen, hpt⟩
  set Mt := log2 inp.length with hMt
  set at' := dTop.1 % 2 ^ 32 with hat
  set bt := (dTop.2 % 2 ^ 32) >>> Mt with hbt
  have hj : topIdx ⟨Mt, at', bt, bks, inp.map Prod.fst⟩ k = ruApply Mt at' bt k := rfl
  have hjlt : ruApply Mt at' bt k < 2 ^ Mt := ruApply_lt _ _ _ _
  have hlen2 : bks.length = 2 ^ Mt := by
    simpa [partitionInput_length] using hlen
  have hget := partitionInput_getElem? Mt at' bt inp (2 ^ Mt)
    (ruApply Mt at' bt k) hjlt (fun e _ => ruApply_lt _ _ _ _)
  rcases hpt _ _ hget with ⟨h1, _⟩ | ⟨_, r, hdp, h3⟩
  · exfalso
    have : (k, v) ∈ inp.filter
        (fun e => ruApply Mt at' bt e.1 == ruApply Mt at' bt k) :=
      List.mem_filter.mpr ⟨hm, by simp⟩
    rw [h1] at this
    cases this
  · rcases do_perfect_ok hdp with ⟨bk2, d2, hpass, hr, hM, hslots⟩
    rcases @resize_empty V _ M0 a0 b0
      ((inp.filter (fun e => ruApply Mt at' bt e.1 == ruApply Mt at' bt k)).length *
        (inp.filter (fun e => ruApply Mt at' bt e.1 == ruApply Mt at' bt k)).length)
      with ⟨hrs, hrM, _, _⟩
    have hmem : (k, v) ∈ inp.filter
        (fun e => ruApply Mt at' bt e.1 == ruApply Mt at' bt k) :=
      List.mem_filter.mpr ⟨hm, by simp⟩
    have hlt : ∀ e' ∈ inp.filter
        (fun e => ruApply Mt at' bt e.1 == ruApply Mt at' bt k),
        ruApply bk2.M bk2.a bk2.b e'.1 < bk2.slots.length := by
      intro e' _
      rw [hslots, hrs, List.length_replicate, hM, hrM]
      exact ruApply_lt _ _ _ _
    have hplace := placeAll_getElem?_mem bk2 _ (k, v) hmem
      (passProbe_ok_pairwise _ _ hpass) hlt
    refine ⟨by rw [hj, hlen2]; exact hjlt, r, h3, ?_⟩
    rw [hr, placeAll_apply]
    exact hplace

theorem construct_lookup [Inhabited V] {inp : List (Nat × V)}
    {dTop : Nat × Nat} {M0 a0 b0 : Nat} {ps : Nat → Nat → Nat × Nat}
    {fuel : Nat} {m : perfect_hash_map V}
    (hc : constructMap inp dTop M0 a0 b0 ps fuel = some (.ok m))
    {k : Nat} {v : V} (hm : (k, v) ∈ inp) :
    mapAt m k = .ok v := by
  rcases construct_slot hc hm with ⟨_, bk, hbk, hslot⟩
  simp [mapAt, hbk, subAt, hslot]

theorem construct_slots_inv [Inhabited V] {inp : List (Nat × V)}
    {dTop : Nat × Nat} {M0 a0 b0 : Nat} {ps : Nat → Nat → Nat × Nat}
    {fuel : Nat} {m : perfect_hash_map V}
    (hc : constructMap inp dTop M0 a0 b0 ps fuel = some (.ok m)) :
    ∀ bk ∈ m.buckets, ∀ p ∈ bk.slots, p ∈ inp ∨ p = (0, (default : V)) := by
  rcases constructMap_ok hc with ⟨bks, hbb, rfl⟩
  rcases buildBuckets_ok hbb with ⟨hlen, hpt⟩
  intro bk hbk p hp
  rcases List.mem_iff_getElem?.mp hbk with ⟨j, hj⟩
  have hjlt : j < bks.length := (List.getElem?_eq_some.mp hj).1
  have hjlt2 : j < 2 ^ log2 inp.length := by
    rw [hlen, partitionInput_length] at hjlt
    exact hjlt
  have hget := partitionInput_getElem? (log2 inp.length) (dTop.1 % 2 ^ 32)
    ((dTop.2 % 2 ^ 32) >>> log2 inp.length) inp (2 ^ log2 inp.length) j hjlt2
    (fun e _ => ruApply_lt _ _ _ _)
  rcases hpt _ _ hget with ⟨_, h2⟩ | ⟨_, r, hdp, h3⟩
  · rw [hj] at h2
    injection h2 with h2
    rw [h2] at hp
    simp at hp
  · rw [hj] at h3
    injection h3 with h3
    rcases do_perfect_ok hdp with ⟨bk2, d2, _, hr, _, hslots⟩
    rw [h3, hr] at hp
    rcases placeAll_mem_slots bk2 _ p hp with hmem | hmem
    · right
      rw [hslots] at hmem
      rcases @resize_empty V _ M0 a0 b0 _ with ⟨hrs, _, _, _⟩
      rw [hrs] at hmem
      exact List.eq_of_mem_replicate hmem
    · left
      exact (List.mem_filter.mp hmem).1

theorem construct_absent [Inhabited V] {inp : List (Nat × V)}
    {dTop : Nat × Nat} {M0 a0 b0 : Nat} {ps : Nat → Nat → Nat × Nat}
    {fuel : Nat} {m : perfect_hash_map V}
    (hc : constructMap inp dTop M0 a0 b0 ps fuel = some (.ok m))
    {k : Nat} (habs : k ∉ inp.map Prod.fst) :
    mapAt m k = .error .ub ∨ mapAt m k = .error .notFound ∨
      (k = 0 ∧ mapAt m k = .ok (default : V)) := by
  have hinv := construct_slots_inv hc
  rcases construct_shape hc with ⟨hM, ha, hb, hblen, _⟩
  have hjlt : topIdx m k < m.buckets.length := by
    rw [hblen]
    simpa [topIdx, hM] using ruApply_lt m.M m.a m.b k
  obtain ⟨bk, hbk⟩ : ∃ bk, m.buckets[topIdx m k]? = some bk :=
    ⟨_, List.getElem?_eq_getElem hjlt⟩
  cases hslot : bk.slots[bk.apply k]? with
  | none =>
    left
    simp [mapAt, hbk, subAt, hslot]
  | some p =>
    have hpmem : p ∈ bk.slots := List.getElem?_mem hslot
    by_cases hpk : p.1 = k
    · rcases hinv bk (List.getElem?_mem hbk) p hpmem with hin | hdef
      · exfalso
        exact habs (List.mem_map.mpr ⟨p, hin, hpk⟩)
      · right; right
        have hk0 : k = 0 := by rw [← hpk, hdef]
        have hval : p.2 = (default : V) := by rw [hdef]
        refine ⟨hk0, ?_⟩
        simp [mapAt, hbk, subAt, hslot, hpk, hval]
    · right; left
      simp [mapAt, hbk, subAt, hslot, hpk]

theorem map_set_eq_of_getElem? {α β : Type} (l : List α) (i : Nat) (x y : α)
    (f : α → β) (h : l[i]? = some x) (hf : f y = f x) :
    (l.set i y).map f = l.map f := by
  rw [List.map_set]
  apply List.ext_getElem?
  intro n
  by_cases hn : n = i
  · subst hn
    have hlt : n < l.length := (List.getElem?_eq_some.mp h).1
    rw [List.getElem?_set_self (by simpa using hlt), List.getElem?_map, h]
    simp [hf]
  · exact List.getElem?_set_ne (fun hc => hn hc.symm)

theorem updateVal_shape (m : perfect_hash_map V) (k : Nat) (v : V) :
    (updateVal m k v).M = m.M ∧ (updateVal m k v).a = m.a ∧
      (updateVal m k v).b = m.b ∧ (updateVal m k v).keys = m.keys ∧
      (updateVal m k v).buckets.length = m.buckets.length ∧
      (updateVal m k v).buckets.map SubHash.capacity =
        m.buckets.map SubHash.capacity ∧
      (updateVal m k v).buckets.map (fun bk => (bk.M, bk.a, bk.b)) =
        m.buckets.map (fun bk => (bk.M, bk.a, bk.b)) := by
  cases h1 : m.buckets[topIdx m k]? with
  | none => simp [updateVal, h1]
  | some bk =>
    cases h2 : bk.slots[bk.apply k]? with
    | none => simp [updateVal, h1, h2]
    | some p =>
      have hu : updateVal m k v =
          ⟨m.M, m.a, m.b,
            m.buckets.set (topIdx m k)
              ⟨bk.M, bk.a, bk.b, bk.slots.set (bk.apply k) (p.1, v)⟩,
            m.keys⟩ := by
        simp only [updateVal, h1, h2]
      rw [hu]
      refine ⟨rfl, rfl, rfl, rfl, by simp, ?_, ?_⟩
      · exact map_set_eq_of_getElem? _ _ bk _ _ h1 (by simp [SubHash.capacity])
      · exact map_set_eq_of_getElem? _ _ bk _ _ h1 (by simp)

theorem construct_update_frame [Inhabited V] {inp : List (Nat × V)}
    {dTop : Nat × Nat} {M0 a0 b0 : Nat} {ps : Nat → Nat → Nat × Nat}
    {fuel : Nat} {m : perfect_hash_map V}
    (hc : constructMap inp dTop M0 a0 b0 ps fuel = some (.ok m))
    {k : Nat} {v0 : V} (hm : (k, v0) ∈ inp) (v : V) :
    mapAt (updateVal m k v) k = .ok v ∧
      ∀ q, q ≠ k → mapAt (updateVal m k v) q = mapAt m q := by
  rcases construct_slot hc hm with ⟨hTlt, bk, hT, hS⟩
  obtain ⟨M, a, b, buckets, keys⟩ := m
  simp only [topIdx] at hT hTlt
  simp only [SubHash.apply] at hS
  have hSlt : ruApply bk.M bk.a bk.b k < bk.slots.length :=
    (List.getElem?_eq_some.mp hS).1
  have hu : updateVal ⟨M, a, b, buckets, keys⟩ k v =
      ⟨M, a, b,
        buckets.set (ruApply M a b k)
          ⟨bk.M, bk.a, bk.b, bk.slots.set (ruApply bk.M bk.a bk.b k) (k, v)⟩,
        keys⟩ := by
    simp only [updateVal, topIdx, SubHash.apply, hT, hS]
  rw [hu]
  constructor
  · simp only [mapAt, topIdx, subAt, SubHash.apply]
    rw [List.getElem?_set_self (by simpa using hTlt)]
    dsimp only
    rw [List.getElem?_set_self hSlt]
    simp
  · intro q hq
    simp only [mapAt, topIdx, subAt, SubHash.apply]
    by_cases hTq : ruApply M a b q = ruApply M a b k
    · rw [hTq, List.getElem?_set_self (by simpa using hTlt), hT]
      dsimp only
      by_cases hSq : ruApply bk.M bk.a bk.b q = ruApply bk.M bk.a bk.b k
      · rw [hSq, List.getElem?_set_self hSlt, hS]
        dsimp only
        simp [Ne.symm hq]
      · rw [List.getElem?_set_ne (fun hc2 => hSq hc2.symm)]
    · rw [List.getElem?_set_ne (fun hc2 => hTq hc2.symm)]

/-- The pending pairs that populate's partition phase routes to top-level
bucket `i`: the input pairs whose top-level hash is `i`, in input order. -/
def pendingAt (inp : List (Nat × V)) (dTop : Nat × Nat) (i : Nat) :
    List (Nat × V) :=
  inp.filter (fun e =>
    ruApply (log2 inp.length) (dTop.1 % 2 ^ 32)
      ((dTop.2 % 2 ^ 32) >>> log2 inp.length) e.1 == i)

/-- The map the model builds from [(1,"a")] with all-zero random draws. -/
def demoMap1 : perfect_hash_map String :=
  ⟨1, 0, 0, [⟨1, 0, 0, [(1, "a"), (0, "")]⟩, ⟨0, 0, 0, []⟩], [1]⟩

/-- The map built from [(1,"a")] with prototype hash parameters 2^31. -/
def demoMap2 : perfect_hash_map String :=
  ⟨1, 0, 0, [⟨1, 2 ^ 31, 2 ^ 31, [(1, "a"), (0, "")]⟩,
    ⟨0, 2 ^ 31, 2 ^ 31, []⟩], [1]⟩

/-- The map built from the empty input. -/
def demoMapEmpty : perfect_hash_map String := ⟨0, 0, 0, [⟨0, 0, 0, []⟩], []⟩

/-- C1 counterexample: the spec's duplicate-key scenario [(2,"x"), (2,"y")]
never yields a map at all.  The two occurrences of key 2 land in the same
bucket and collide under every second-level hash, so the first probe pass
always flags a collision; the compiled (hashing::) do_perfect then empties
the scratch vector and the restarted pass throws std::out_of_range, so
construction signals an error and at(2) cannot return "y". -/
theorem C1_counterexample :
    constructMap [((2 : Nat), "x"), (2, "y")] (0, 0) 0 0 0
        (fun _ _ => (0, 0)) 5 = some (.error .atThrow) ∧
    ¬ ∃ m : perfect_hash_map String,
        constructMap [((2 : Nat), "x"), (2, "y")] (0, 0) 0 0 0
          (fun _ _ => (0, 0)) 5 = some (.ok m) := by
  refine ⟨rfl, ?_⟩
  rintro ⟨m, hm⟩
  rw [show constructMap [((2 : Nat), "x"), (2, "y")] (0, 0) 0 0 0
      (fun _ _ => (0, 0)) 5 = some (.error .atThrow) from rfl] at hm
  simp at hm

/-- C1 (amended): whenever construction completes without signaling an
error, the checked lookup at(k) returns v for every pair (k, v) of the
construction input.  (An input with a duplicated key never completes, so the
last-occurrence proviso is unreachable.) -/
theorem C1_present_lookup [Inhabited V] {inp : List (Nat × V)}
    {dTop : Nat × Nat} {M0 a0 b0 : Nat} {ps : Nat → Nat → Nat × Nat}
    {fuel : Nat} {m : perfect_hash_map V}
    (hc : constructMap inp dTop M0 a0 b0 ps fuel = some (.ok m))
    {k : Nat} {v : V} (hm : (k, v) ∈ inp) :
    mapAt m k = .ok v :=
  construct_lookup hc hm

/-- Witness for C1: the concrete build from [(1,"a")] succeeds and at(1)
returns "a". -/
theorem C1_witness :
    constructMap [((1 : Nat), "a")] (0, 0) 0 0 0 (fun _ _ => (0, 0)) 2 =
      some (.ok demoMap1) ∧
    mapAt demoMap1 1 = .ok "a" :=
  ⟨rfl,
    C1_present_lookup
      (show constructMap [((1 : Nat), "a")] (0, 0) 0 0 0 (fun _ _ => (0, 0)) 2
        = some (.ok demoMap1) from rfl) (by simp)⟩

/-- C2: at a bucket with pending pairs [(1,"x"), (2,"y")] whose initial hash
(a = 0, b = 0) maps both keys to slot 0, the compiled (hashing::) do_perfect
empties the scratch vector (`dummy.clear()`), so the restarted pass's
checked `dummy.at(h)` immediately throws std::out_of_range; the perfhash::
variant instead resets every entry to false (`std::fill`), restarts from the
first pending pair, and succeeds once the rehash draw (2^29, 0) separates
the keys. -/
theorem C2_scratch_clear_throws :
    do_perfect [((1 : Nat), "x"), (2, "y")] (fun _ => (2 ^ 29, 0)) 5
        ((⟨0, 0, 0, []⟩ : SubHash String).resize (2 * 2)) 0
        (List.replicate
          ((⟨0, 0, 0, []⟩ : SubHash String).resize (2 * 2)).capacity false)
      = some (.error .atThrow) ∧
    do_perfectChk [((1 : Nat), "x"), (2, "y")] (fun _ => (2 ^ 29, 0)) 5
        ((⟨0, 0, 0, []⟩ : SubHash String).resize (2 * 2)) 0
        (List.replicate
          ((⟨0, 0, 0, []⟩ : SubHash String).resize (2 * 2)).capacity false)
      = some (.ok ⟨3, 2 ^ 29, 0,
          [(0, ""), (1, "x"), (2, "y"), (0, ""), (0, ""), (0, ""), (0, ""),
            (0, "")]⟩) :=
  ⟨rfl, rfl⟩

/-- C3 counterexample: in the map built from [(1,"a")] with second-level
hash parameters a0 = b0 = 2^31, the key 0 was never part of the input, yet
at(0) lands on an untouched slot holding the default pair (0, "") and
returns "" instead of signaling NotFound. -/
theorem C3_counterexample :
    constructMap [((1 : Nat), "a")] (0, 0) 0 (2 ^ 31) (2 ^ 31)
        (fun _ _ => (0, 0)) 2 = some (.ok demoMap2) ∧
    (0 : Nat) ∉ [((1 : Nat), "a")].map Prod.fst ∧
    mapAt demoMap2 0 = .ok "" :=
  ⟨rfl, by simp, rfl⟩

/-- C3 (amended): on a successfully constructed map, a query key that was
never part of the construction input either makes at throw NotFound (the
stored key at its slot differs), or equals the default key 0 and reads the
default value out of an untouched slot, or hits an empty bucket, where the
compiled variant's unchecked slot access is out of bounds. -/
theorem C3_absent_lookup [Inhabited V] {inp : List (Nat × V)}
    {dTop : Nat × Nat} {M0 a0 b0 : Nat} {ps : Nat → Nat → Nat × Nat}
    {fuel : Nat} {m : perfect_hash_map V}
    (hc : constructMap inp dTop M0 a0 b0 ps fuel = some (.ok m))
    {k : Nat} (habs : k ∉ inp.map Prod.fst) :
    mapAt m k = .error .ub ∨ mapAt m k = .error .notFound ∨
      (k = 0 ∧ mapAt m k = .ok (default : V)) :=
  construct_absent hc habs

/-- Witness for C3 (amended): at(0) on the all-zero-draw build from
[(1,"a")]. -/
theorem C3_witness :
    (0 : Nat) ∉ [((1 : Nat), "a")].map Prod.fst ∧
    (mapAt demoMap1 0 = .error .ub ∨ mapAt demoMap1 0 = .error .notFound ∨
      ((0 : Nat) = 0 ∧ mapAt demoMap1 0 = .ok (default : String))) :=
  ⟨by simp,
    C3_absent_lookup
      (show constructMap [((1 : Nat), "a")] (0, 0) 0 0 0 (fun _ _ => (0, 0)) 2
        = some (.ok demoMap1) from rfl) (by simp)⟩

/-- C4 counterexample: for the single-pair input [(1,"a")] (n = 1) the
constructed table has exponent M = 1 and 2 buckets, while the spec's
ceil(log2 1) is 0 and the smallest power of two ≥ 1 is 1. -/
theorem C4_counterexample :
    constructMap [((1 : Nat), "a")] (0, 0) 0 0 0 (fun _ _ => (0, 0)) 2 =
      some (.ok demoMap1) ∧
    demoMap1.M = 1 ∧ demoMap1.buckets.length = 2 ∧
    specCeilLog2 [((1 : Nat), "a")].length = 0 ∧
    demoMap1.M ≠ specCeilLog2 [((1 : Nat), "a")].length ∧
    (2 : Nat) ^ specCeilLog2 [((1 : Nat), "a")].length = 1 :=
  ⟨rfl, rfl, rfl, by decide, by decide, by decide⟩

/-- C4 (amended): the constructed top-level exponent is the bit length of n
(the header's log2, i.e. floor(log2 n) + 1 for n ≥ 1), the table has 2^M
buckets, and 2^M is the smallest power of two strictly greater than n. -/
theorem C4_table_size [Inhabited V] {inp : List (Nat × V)} {dTop : Nat × Nat}
    {M0 a0 b0 : Nat} {ps : Nat → Nat → Nat × Nat} {fuel : Nat}
    {m : perfect_hash_map V}
    (hc : constructMap inp dTop M0 a0 b0 ps fuel = some (.ok m)) :
    m.M = log2 inp.length ∧ m.buckets.length = 2 ^ m.M ∧
      inp.length < 2 ^ m.M ∧ ∀ j, inp.length < 2 ^ j → m.M ≤ j := by
  rcases construct_shape hc with ⟨hM, _, _, hlen, _⟩
  refine ⟨hM, by rw [hM]; exact hlen, ?_, ?_⟩
  · rw [hM]; exact lt_two_pow_log2 _
  · intro j hj; rw [hM]; exact log2_le_of_lt_two_pow _ _ hj

/-- Witness for C4 (amended) at the one-pair build. -/
theorem C4_witness :
    constructMap [((1 : Nat), "a")] (0, 0) 0 0 0 (fun _ _ => (0, 0)) 2 =
      some (.ok demoMap1) ∧
    demoMap1.M = log2 [((1 : Nat), "a")].length ∧
    demoMap1.buckets.length = 2 ^ demoMap1.M ∧
    [((1 : Nat), "a")].length < 2 ^ demoMap1.M := by
  have h := C4_table_size
    (show constructMap [((1 : Nat), "a")] (0, 0) 0 0 0 (fun _ _ => (0, 0)) 2
      = some (.ok demoMap1) from rfl)
  exact ⟨rfl, h.1, h.2.1, h.2.2.1⟩

/-- C5: construction from the empty input terminates (fuel 1 suffices, no
retry loop runs) with exponent 0 and a single empty bucket, but checked
lookups on the result do not signal NotFound in the compiled (hashing::)
variant: the empty bucket's slot vector is indexed out of bounds
(`buckets[hash(key)]` with size 0), undefined behavior; only the perfhash::
variant's bounds check produces the NotFound throw the spec requires. -/
theorem C5_empty_input :
    constructMap ([] : List (Nat × String)) (0, 0) 0 0 0
        (fun _ _ => (0, 0)) 1 = some (.ok demoMapEmpty) ∧
    demoMapEmpty.M = 0 ∧ demoMapEmpty.buckets.length = 1 ∧
    (∀ k, mapAt demoMapEmpty k = .error .ub) ∧
    (∀ k, mapAtChk demoMapEmpty k = .error .notFound) := by
  refine ⟨rfl, rfl, rfl, ?_, ?_⟩ <;> intro k <;>
    simp [mapAt, mapAtChk, demoMapEmpty, topIdx, ruApply_eq, subAt, subAtChk]

/-- C6: a bucket that received a non-empty pending list of n_i pairs has,
after its resize, a slot count of exactly 2 ^ log2(n_i * n_i) — a power of
two strictly greater than n_i², hence at least n_i² — and value updates
through the unchecked accessor never change any bucket's capacity. -/
theorem C6_bucket_capacity [Inhabited V] {inp : List (Nat × V)}
    {dTop : Nat × Nat} {M0 a0 b0 : Nat} {ps : Nat → Nat → Nat × Nat}
    {fuel : Nat} {m : perfect_hash_map V} {i : Nat} {bk : SubHash V}
    (hc : constructMap inp dTop M0 a0 b0 ps fuel = some (.ok m))
    (hbk : m.buckets[i]? = some bk) (hne : pendingAt inp dTop i ≠ []) :
    bk.capacity =
      2 ^ log2 ((pendingAt inp dTop i).length *
        (pendingAt inp dTop i).length) ∧
    (pendingAt inp dTop i).length * (pendingAt inp dTop i).length ≤
      bk.capacity ∧
    ∀ k v, (updateVal m k v).buckets.map SubHash.capacity =
      m.buckets.map SubHash.capacity := by
  rcases constructMap_ok hc with ⟨bks, hbb, rfl⟩
  rcases buildBuckets_ok hbb with ⟨hlen, hpt⟩
  have hbk' : bks[i]? = some bk := by simpa using hbk
  have hilt : i < bks.length := (List.getElem?_eq_some.mp hbk').1
  have hilt2 : i < 2 ^ log2 inp.length := by
    rw [hlen, partitionInput_length] at hilt
    exact hilt
  have hget := partitionInput_getElem? (log2 inp.length) (dTop.1 % 2 ^ 32)
    ((dTop.2 % 2 ^ 32) >>> log2 inp.length) inp (2 ^ log2 inp.length) i hilt2
    (fun e _ => ruApply_lt _ _ _ _)
  rcases hpt _ _ hget with ⟨h1, _⟩ | ⟨_, r, hdp, h3⟩
  · exact absurd h1 hne
  · rw [hbk'] at h3
    injection h3 with h3
    rcases do_perfect_ok hdp with ⟨bk2, d2, _, hr, _, hslots⟩
    rcases @resize_empty V _ M0 a0 b0 _ with ⟨hrs, _, _, _⟩
    have hcap : bk.capacity = 2 ^ log2 ((pendingAt inp dTop i).length *
        (pendingAt inp dTop i).length) := by
      rw [h3, hr, SubHash.capacity, placeAll_length, hslots, hrs,
        List.length_replicate]
      rfl
    refine ⟨hcap, ?_, fun k v => (updateVal_shape _ k v).2.2.2.2.2.1⟩
    rw [hcap]
    exact le_of_lt (lt_two_pow_log2 _)

/-- Witness for C6: the non-empty bucket of the one-pair build has capacity
2 = 2 ^ log2(1·1) ≥ 1·1, unchanged by an update. -/
theorem C6_witness :
    demoMap1.buckets[(0 : Nat)]? = some ⟨1, 0, 0, [(1, "a"), (0, "")]⟩ ∧
    pendingAt [((1 : Nat), "a")] (0, 0) 0 ≠ [] ∧
    (⟨1, 0, 0, [(1, "a"), (0, "")]⟩ : SubHash String).capacity =
      2 ^ log2 ((pendingAt [((1 : Nat), "a")] (0, 0) 0).length *
        (pendingAt [((1 : Nat), "a")] (0, 0) 0).length) ∧
    (pendingAt [((1 : Nat), "a")] (0, 0) 0).length *
      (pendingAt [((1 : Nat), "a")] (0, 0) 0).length ≤
      (⟨1, 0, 0, [(1, "a"), (0, "")]⟩ : SubHash String).capacity ∧
    (updateVal demoMap1 1 "z").buckets.map SubHash.capacity =
      demoMap1.buckets.map SubHash.capacity := by
  have h := C6_bucket_capacity
    (show constructMap [((1 : Nat), "a")] (0, 0) 0 0 0 (fun _ _ => (0, 0)) 2
      = some (.ok demoMap1) from rfl)
    (show demoMap1.buckets[(0 : Nat)]? =
      some ⟨1, 0, 0, [(1, "a"), (0, "")]⟩ from rfl)
    (by decide)
  exact ⟨rfl, by decide, h.1, h.2.1, h.2.2 1 "z"⟩

/-- C7 counterexample: from the same input [(1,"a")], the all-zero-draw
build and the 2^31-parameter build both succeed, but the two maps disagree
on the never-inserted key 0: the first throws NotFound while the second
returns "" — the externally observable results differ with the seed. -/
theorem C7_counterexample :
    constructMap [((1 : Nat), "a")] (0, 0) 0 0 0 (fun _ _ => (0, 0)) 2 =
      some (.ok demoMap1) ∧
    constructMap [((1 : Nat), "a")] (0, 0) 0 (2 ^ 31) (2 ^ 31)
      (fun _ _ => (0, 0)) 2 = some (.ok demoMap2) ∧
    mapAt demoMap1 0 = .error .notFound ∧ mapAt demoMap2 0 = .ok "" ∧
    mapAt demoMap1 0 ≠ mapAt demoMap2 0 := by
  refine ⟨rfl, rfl, rfl, rfl, ?_⟩
  intro h
  rw [show mapAt demoMap1 0 = .error .notFound from rfl,
    show mapAt demoMap2 0 = .ok "" from rfl] at h
  cases h

/-- C7 (amended): two maps built from the same input with arbitrary draws
agree on every key present in the input — both return the stored value —
whenever both constructions succeed; for absent keys the observable result
may depend on the draws. -/
theorem C7_present_agree [Inhabited V] {inp : List (Nat × V)}
    {d1 d2 : Nat × Nat} {Ma aa ba Mb ab bb : Nat}
    {ps1 ps2 : Nat → Nat → Nat × Nat} {f1 f2 : Nat}
    {mA mB : perfect_hash_map V}
    (hcA : constructMap inp d1 Ma aa ba ps1 f1 = some (.ok mA))
    (hcB : constructMap inp d2 Mb ab bb ps2 f2 = some (.ok mB))
    {k : Nat} {v : V} (hm : (k, v) ∈ inp) :
    mapAt mA k = .ok v ∧ mapAt mB k = .ok v ∧ mapAt mA k = mapAt mB k := by
  have h1 := construct_lookup hcA hm
  have h2 := construct_lookup hcB hm
  exact ⟨h1, h2, by rw [h1, h2]⟩

/-- Witness for C7 (amended): the two concrete builds agree on the present
key 1. -/
theorem C7_witness :
    constructMap [((1 : Nat), "a")] (0, 0) 0 0 0 (fun _ _ => (0, 0)) 2 =
      some (.ok demoMap1) ∧
    constructMap [((1 : Nat), "a")] (0, 0) 0 (2 ^ 31) (2 ^ 31)
      (fun _ _ => (0, 0)) 2 = some (.ok demoMap2) ∧
    mapAt demoMap1 1 = .ok "a" ∧ mapAt demoMap2 1 = .ok "a" ∧
    mapAt demoMap1 1 = mapAt demoMap2 1 := by
  have h := C7_present_agree
    (show constructMap [((1 : Nat), "a")] (0, 0) 0 0 0 (fun _ _ => (0, 0)) 2
      = some (.ok demoMap1) from rfl)
    (show constructMap [((1 : Nat), "a")] (0, 0) 0 (2 ^ 31) (2 ^ 31)
      (fun _ _ => (0, 0)) 2 = some (.ok demoMap2) from rfl)
    (show ((1 : Nat), "a") ∈ [((1 : Nat), "a")] by simp)
  exact ⟨rfl, rfl, h.1, h.2.1, h.2.2⟩

/-- C8 counterexample: for a 64-bit key type the cast `unsigned(...)`
truncates the product to 32 bits before the shift, so with M = 33, a = 0,
b = 2^40, x = 0 the code computes index 0 while the spec's all-mod-2^w
formula gives 512. -/
theorem C8_counterexample :
    ruApplyW 64 33 0 (2 ^ 40) 0 = 0 ∧
    specRuApply 64 33 0 (2 ^ 40) 0 = 512 ∧
    ruApplyW 64 33 0 (2 ^ 40) 0 ≠ specRuApply 64 33 0 (2 ^ 40) 0 := by
  refine ⟨rfl, rfl, ?_⟩
  intro h
  rw [show ruApplyW 64 33 0 (2 ^ 40) 0 = 0 from rfl,
    show specRuApply 64 33 0 (2 ^ 40) 0 = 512 from rfl] at h
  cases h

/-- C8 (amended): at the key width the program instantiates (w = 32), the
hash is ((a·x + b) mod 2^32) >> (32 − M), with multiplication and addition
wrapping modulo 2^32, and the returned index always lies in [0, 2^M). -/
theorem C8_hash32 (M a b x : Nat) (_hM : M ≤ 32) :
    ruApplyW 32 M a b x = ((a * x + b) % 2 ^ 32) >>> (32 - M) ∧
      ruApplyW 32 M a b x < 2 ^ M :=
  ⟨ruApply_eq M a b x, ruApply_lt M a b x⟩

/-- Witness for C8 (amended) at M = 3, a = 5, b = 7, x = 11. -/
theorem C8_witness :
    (3 : Nat) ≤ 32 ∧
    ruApplyW 32 3 5 7 11 = ((5 * 11 + 7) % 2 ^ 32) >>> (32 - 3) ∧
    ruApplyW 32 3 5 7 11 < 2 ^ 3 :=
  ⟨by decide, (C8_hash32 3 5 7 11 (by decide)).1,
    (C8_hash32 3 5 7 11 (by decide)).2⟩

/-- C9: on a successfully constructed map, writing v through the unchecked
accessor at a present key k makes at(k) return v, leaves at(q) untouched
for every other key q (hence the set of keys on which at succeeds and the
values of all other present keys), and preserves the top-level hash
parameters, every bucket's hash parameters, the table size and every
bucket's capacity. -/
theorem C9_update_frame [Inhabited V] {inp : List (Nat × V)}
    {dTop : Nat × Nat} {M0 a0 b0 : Nat} {ps : Nat → Nat → Nat × Nat}
    {fuel : Nat} {m : perfect_hash_map V}
    (hc : constructMap inp dTop M0 a0 b0 ps fuel = some (.ok m))
    {k : Nat} {v0 : V} (hm : (k, v0) ∈ inp) (v : V) :
    mapAt (updateVal m k v) k = .ok v ∧
      (∀ q, q ≠ k → mapAt (updateVal m k v) q = mapAt m q) ∧
      (∀ q, (mapAt (updateVal m k v) q).isOk = (mapAt m q).isOk) ∧
      (updateVal m k v).M = m.M ∧ (updateVal m k v).a = m.a ∧
      (updateVal m k v).b = m.b ∧
      (updateVal m k v).buckets.map (fun bk => (bk.M, bk.a, bk.b)) =
        m.buckets.map (fun bk => (bk.M, bk.a, bk.b)) ∧
      (updateVal m k v).buckets.length = m.buckets.length ∧
      (updateVal m k v).buckets.map SubHash.capacity =
        m.buckets.map SubHash.capacity := by
  rcases construct_update_frame hc hm v with ⟨h1, h2⟩
  rcases updateVal_shape m k v with ⟨s1, s2, s3, s4, s5, s6, s7⟩
  refine ⟨h1, h2, ?_, s1, s2, s3, s7, s5, s6⟩
  intro q
  by_cases hqk : q = k
  · subst hqk
    rw [h1, construct_lookup hc hm]
    rfl
  · rw [h2 q hqk]

/-- Witness for C9: updating key 1 to "z" in the one-pair build. -/
theorem C9_witness :
    constructMap [((1 : Nat), "a")] (0, 0) 0 0 0 (fun _ _ => (0, 0)) 2 =
      some (.ok demoMap1) ∧
    mapAt (updateVal demoMap1 1 "z") 1 = .ok "z" ∧
    mapAt (updateVal demoMap1 1 "z") 0 = mapAt demoMap1 0 ∧
    (updateVal demoMap1 1 "z").buckets.map SubHash.capacity =
      demoMap1.buckets.map SubHash.capacity := by
  have h := C9_update_frame
    (show constructMap [((1 : Nat), "a")] (0, 0) 0 0 0 (fun _ _ => (0, 0)) 2
      = some (.ok demoMap1) from rfl)
    (show ((1 : Nat), "a") ∈ [((1 : Nat), "a")] by simp) "z"
  exact ⟨rfl, h.1, h.2.1 0 (by decide), h.2.2.2.2.2.2.2.2⟩

/-- C10: after a successful construction every slot of every bucket holds
either one of the construction input pairs or the default-constructed pair
(0, default) — there is no separate empty marker — and consequently a
successful checked lookup yields either an input pair or, for the default
key 0, the default value: occupied and empty slots are distinguished only
by comparing the stored key with the query key. -/
theorem C10_slots_default [Inhabited V] {inp : List (Nat × V)}
    {dTop : Nat × Nat} {M0 a0 b0 : Nat} {ps : Nat → Nat → Nat × Nat}
    {fuel : Nat} {m : perfect_hash_map V}
    (hc : constructMap inp dTop M0 a0 b0 ps fuel = some (.ok m)) :
    (∀ bk ∈ m.buckets, ∀ p ∈ bk.slots, p ∈ inp ∨ p = (0, (default : V))) ∧
      ∀ k v, mapAt m k = .ok v → (k, v) ∈ inp ∨ (k = 0 ∧ v = default) := by
  have hinv := construct_slots_inv hc
  refine ⟨hinv, ?_⟩
  intro k v hok
  simp only [mapAt] at hok
  cases hT : m.buckets[topIdx m k]? with
  | none => rw [hT] at hok; cases hok
  | some bk =>
    rw [hT] at hok
    simp only [subAt] at hok
    cases hSp : bk.slots[bk.apply k]? with
    | none => rw [hSp] at hok; cases hok
    | some p =>
      rw [hSp] at hok
      dsimp only at hok
      split at hok
      next hpk =>
        injection hok with hok
        rcases hinv bk (List.getElem?_mem hT) p (List.getElem?_mem hSp)
          with hin | hdef
        · left
          have hp : p = (k, v) := by rw [← hpk, ← hok]
          rw [← hp]
          exact hin
        · right
          have h1 : p.1 = 0 := by
            have := congrArg Prod.fst hdef
            simpa using this
          have h2 : p.2 = default := by
            have := congrArg Prod.snd hdef
            simpa using this
          constructor
          · rw [← hpk]; exact h1
          · rw [← hok]; exact h2
      next hpk => cases hok

/-- Witness for C10: both slots of the one-pair build's non-empty bucket
satisfy the invariant. -/
theorem C10_witness :
    constructMap [((1 : Nat), "a")] (0, 0) 0 0 0 (fun _ _ => (0, 0)) 2 =
      some (.ok demoMap1) ∧
    (((1 : Nat), "a") ∈ [((1 : Nat), "a")] ∨
      ((1 : Nat), "a") = ((0 : Nat), (default : String))) ∧
    (((0 : Nat), "") ∈ [((1 : Nat), "a")] ∨
      ((0 : Nat), "") = ((0 : Nat), (default : String))) := by
  have h := C10_slots_default
    (show constructMap [((1 : Nat), "a")] (0, 0) 0 0 0 (fun _ _ => (0, 0)) 2
      = some (.ok demoMap1) from rfl)
  exact ⟨rfl,
    h.1 ⟨1, 0, 0, [(1, "a"), (0, "")]⟩ (by simp [demoMap1]) (1, "a") (by simp),
    h.1 ⟨1, 0, 0, [(1, "a"), (0, "")]⟩ (by simp [demoMap1]) (0, "") (by simp)⟩
